import Mathlib

/-!
Verification of the audio playback core of the Lossless-Lab repository
(`src-tauri/src/audio/`): the lock-free SPSC ring buffer, the ReplayGain
state, the engine command handlers, the output-callback fade machine and
the null-test tool, shallowly embedded in Lean.

Modelling conventions:
* `usize` position counters are natural numbers reduced modulo `2 ^ 64`
  (`USIZE`); Rust release-mode wrapping arithmetic is made explicit via
  `wsub` and `% USIZE`.
* `f32` / `f64` sample and gain values are modelled by exact rationals
  (`ℚ`) or reals (`ℝ`) where only the data flow matters; where NaN and
  infinities are observable (volume clamping, the null test, the seek
  cast) the small IEEE value model `F` below is used.
* The transcendental helpers `db_to_linear (db) = 10^(db/20)` and
  `equal_power_gain (p) = sin (p·π/2)` are kept as function parameters of
  the definitions that use them (their exact values are irrational);
  theorems either hold for every such function or instantiate the real
  `sin`-based curve explicitly.
-/

namespace LosslessLab

/-- `2 ^ 64`, the modulus of `usize` arithmetic on the 64-bit targets the
player is built for. -/
def USIZE : ℕ := 2 ^ 64

/-- Wrapping subtraction of two `usize` values (`a.wrapping_sub(b)`). -/
def wsub (a b : ℕ) : ℕ := (a + (USIZE - b % USIZE)) % USIZE

theorem USIZE_pos : 0 < USIZE := by decide

theorem wsub_of_le {a b : ℕ} (hb : b ≤ a) (ha : a < USIZE) : wsub a b = a - b := by
  have hbU : b < USIZE := lt_of_le_of_lt hb ha
  unfold wsub
  rw [Nat.mod_eq_of_lt hbU]
  have h1 : a + (USIZE - b) = (a - b) + USIZE := by omega
  rw [h1, Nat.add_mod_right, Nat.mod_eq_of_lt (by omega)]

/-- The wrapped distance from `r` to `(r + u) % USIZE` is `u` again, for
`u < USIZE`: this is how the ring recovers the used count from the two
wrapped position counters. -/
theorem wsub_add_cancel {r u : ℕ} (hr : r < USIZE) (hu : u < USIZE) :
    wsub ((r + u) % USIZE) r = u := by
  unfold wsub
  rw [Nat.mod_eq_of_lt hr, Nat.mod_add_mod]
  have h1 : r + u + (USIZE - r) = u + USIZE := by omega
  rw [h1, Nat.add_mod_right, Nat.mod_eq_of_lt hu]

-- ─── Ring Buffer (ring_buffer.rs) ───

/-- Shallow embedding of `RingBuffer`: the boxed slice of samples plus the
two monotone (wrapping) position counters, the capacity and the bit mask.
The element type is a parameter; the program instantiates it with `f32`. -/
structure RingBuffer (α : Type) where
  buffer : List α
  write_pos : ℕ
  read_pos : ℕ
  capacity : ℕ
  mask : ℕ
deriving DecidableEq

/-- `RingBuffer::new(capacity)`: a zeroed buffer with both positions at 0
and `mask = capacity - 1`.  (The `assert!(capacity.is_power_of_two())`
precondition is carried by `RingReachable` below.) -/
def RingBuffer.new (α : Type) [Zero α] (capacity : ℕ) : RingBuffer α :=
  { buffer := List.replicate capacity 0
    write_pos := 0
    read_pos := 0
    capacity := capacity
    mask := capacity - 1 }

/-- The slot index for a position counter value: `pos & mask`, with the
position already wrapped to `usize`. -/
def RingBuffer.idx {α : Type} (rb : RingBuffer α) (pos : ℕ) : ℕ :=
  (pos % USIZE) &&& rb.mask

/-- `RingBuffer::write`: copy the longest prefix of `data` that fits into
the free space (`capacity - 1 - used`), publish the new `write_pos`, and
return the number of samples written together with the new state. -/
def RingBuffer.write {α : Type} [Zero α] (rb : RingBuffer α) (data : List α) :
    ℕ × RingBuffer α :=
  let write := rb.write_pos
  let read := rb.read_pos
  let used := wsub write read
  let available := wsub (wsub rb.capacity 1) used
  let to_write := min data.length available
  if to_write = 0 then (0, rb)
  else
    let buffer :=
      (List.range to_write).foldl
        (fun b i => b.set (rb.idx (write + i)) (data.getD i 0)) rb.buffer
    (to_write,
      { rb with buffer := buffer, write_pos := (write + to_write) % USIZE })

/-- `RingBuffer::read`: deliver up to `len` samples (the length of the
output slice) starting at `read_pos`, publish the new `read_pos`, and
return the delivered samples together with the new state. -/
def RingBuffer.read {α : Type} [Zero α] (rb : RingBuffer α) (len : ℕ) :
    List α × RingBuffer α :=
  let read := rb.read_pos
  let write := rb.write_pos
  let available := wsub write read
  let to_read := min len available
  if to_read = 0 then ([], rb)
  else
    ((List.range to_read).map (fun i => rb.buffer.getD (rb.idx (read + i)) 0),
      { rb with read_pos := (read + to_read) % USIZE })

/-- `RingBuffer::available_read`. -/
def RingBuffer.available_read {α : Type} (rb : RingBuffer α) : ℕ :=
  wsub rb.write_pos rb.read_pos

/-- `RingBuffer::available_write`. -/
def RingBuffer.available_write {α : Type} (rb : RingBuffer α) : ℕ :=
  wsub (wsub rb.capacity 1) (wsub rb.write_pos rb.read_pos)

/-- `RingBuffer::clear`: reset both position counters. -/
def RingBuffer.clear {α : Type} (rb : RingBuffer α) : RingBuffer α :=
  { rb with write_pos := 0, read_pos := 0 }

/-- The states reachable by any sequence of `new`, `write`, `read`,
`clear` calls on an SPSC schedule (observed sequentially), starting from
`new C`; `C` must be a `usize` power of two (`assert!` in `new`). -/
inductive RingReachable (α : Type) [Zero α] (C : ℕ) : RingBuffer α → Prop where
  | new (hpow : ∃ k, k ≤ 63 ∧ C = 2 ^ k) : RingReachable α C (RingBuffer.new α C)
  | write (rb : RingBuffer α) (data : List α) :
      RingReachable α C rb → RingReachable α C (rb.write data).2
  | read (rb : RingBuffer α) (len : ℕ) :
      RingReachable α C rb → RingReachable α C (rb.read len).2
  | clear (rb : RingBuffer α) :
      RingReachable α C rb → RingReachable α C rb.clear

/-- Structural invariant of a ring buffer created with capacity `C`. -/
structure RingInv {α : Type} (C : ℕ) (rb : RingBuffer α) : Prop where
  pow : ∃ k, k ≤ 63 ∧ C = 2 ^ k
  cap : rb.capacity = C
  mask : rb.mask = C - 1
  blen : rb.buffer.length = C
  wp : rb.write_pos < USIZE
  rp : rb.read_pos < USIZE
  used : wsub rb.write_pos rb.read_pos ≤ C - 1

theorem RingInv.cap_pos {α : Type} {C : ℕ} {rb : RingBuffer α}
    (h : RingInv C rb) : 0 < C := by
  obtain ⟨k, _, hC⟩ := h.pow
  exact hC ▸ Nat.pos_pow_of_pos k (by decide)

theorem RingInv.cap_lt {α : Type} {C : ℕ} {rb : RingBuffer α}
    (h : RingInv C rb) : C < USIZE := by
  obtain ⟨k, hk, hC⟩ := h.pow
  subst hC
  calc 2 ^ k ≤ 2 ^ 63 := Nat.pow_le_pow_right (by decide) hk
  _ < USIZE := by decide

theorem RingInv.cap_dvd {α : Type} {C : ℕ} {rb : RingBuffer α}
    (h : RingInv C rb) : C ∣ USIZE := by
  obtain ⟨k, hk, hC⟩ := h.pow
  subst hC
  exact pow_dvd_pow 2 (le_trans hk (by decide))

/-- The slot index of a wrapped position is just the position modulo the
capacity. -/
theorem idx_eq_mod {α : Type} {C : ℕ} {rb : RingBuffer α} (h : RingInv C rb)
    (pos : ℕ) : rb.idx pos = pos % C := by
  obtain ⟨k, hk, hC⟩ := h.pow
  unfold RingBuffer.idx
  rw [h.mask, hC]
  rw [Nat.and_pow_two_sub_one_eq_mod]
  exact Nat.mod_mod_of_dvd pos (pow_dvd_pow 2 (le_trans hk (by decide)))

-- ─── Generic facts about the in-place write loops ───

/-- One unfolding step of a `for i in 0..t { buf[f i] = g i }` loop. -/
theorem foldl_set_succ {α : Type} (f : ℕ → ℕ) (g : ℕ → α) (b : List α) (t : ℕ) :
    ((List.range (t + 1)).foldl (fun b i => b.set (f i) (g i)) b) =
      ((List.range t).foldl (fun b i => b.set (f i) (g i)) b).set (f t) (g t) := by
  rw [List.range_succ, List.foldl_append]
  rfl

theorem foldl_set_length {α : Type} (f : ℕ → ℕ) (g : ℕ → α) (b : List α) (t : ℕ) :
    ((List.range t).foldl (fun b i => b.set (f i) (g i)) b).length = b.length := by
  induction t with
  | zero => rfl
  | succ t ih => rw [foldl_set_succ, List.length_set, ih]

/-- Slots not targeted by the loop keep their value. -/
theorem foldl_set_getD_ne {α : Type} [Zero α] (f : ℕ → ℕ) (g : ℕ → α) (b : List α)
    (t : ℕ) {j : ℕ} (h : ∀ i, i < t → f i ≠ j) :
    ((List.range t).foldl (fun b i => b.set (f i) (g i)) b).getD j 0 = b.getD j 0 := by
  induction t with
  | zero => rfl
  | succ t ih =>
    rw [foldl_set_succ]
    rw [List.getD_eq_getElem?_getD, List.getElem?_set_ne (h t (Nat.lt_succ_self t)),
      ← List.getD_eq_getElem?_getD]
    exact ih (fun i hi => h i (Nat.lt_succ_of_lt hi))

/-- A slot targeted by iteration `i` and by no later iteration ends up
holding `g i`. -/
theorem foldl_set_getD_eq {α : Type} [Zero α] (f : ℕ → ℕ) (g : ℕ → α) (b : List α)
    (t : ℕ) {i : ℕ} (hit : i < t)
    (hinj : ∀ i', i < i' → i' < t → f i' ≠ f i) (hlen : f i < b.length) :
    ((List.range t).foldl (fun b i => b.set (f i) (g i)) b).getD (f i) 0 = g i := by
  induction t with
  | zero => omega
  | succ t ih =>
    rw [foldl_set_succ]
    by_cases hi : i = t
    · subst hi
      have hl : f i < (((List.range i).foldl (fun b i => b.set (f i) (g i)) b)).length := by
        rw [foldl_set_length]; exact hlen
      rw [List.getD_eq_getElem?_getD, List.getElem?_set_self hl]
      rfl
    · have hit' : i < t := by omega
      rw [List.getD_eq_getElem?_getD,
        List.getElem?_set_ne (hinj t hit' (Nat.lt_succ_self t)),
        ← List.getD_eq_getElem?_getD]
      exact ih hit' (fun i' h1 h2 => hinj i' h1 (Nat.lt_succ_of_lt h2))

-- ─── Ring buffer step characterisation ───

/-- The samples currently in flight: the `used` slots starting at
`read_pos`.  This is the abstraction function for the FIFO proof. -/
def RingBuffer.pending {α : Type} [Zero α] (rb : RingBuffer α) : List α :=
  (List.range (wsub rb.write_pos rb.read_pos)).map
    (fun i => rb.buffer.getD (rb.idx (rb.read_pos + i)) 0)

theorem pending_length {α : Type} [Zero α] (rb : RingBuffer α) :
    rb.pending.length = wsub rb.write_pos rb.read_pos := by
  unfold RingBuffer.pending
  rw [List.length_map, List.length_range]

/-- `new` satisfies the structural invariant. -/
theorem ringInv_new {α : Type} [Zero α] {C : ℕ} (hpow : ∃ k, k ≤ 63 ∧ C = 2 ^ k) :
    RingInv C (RingBuffer.new α C) := by
  refine ⟨hpow, rfl, rfl, List.length_replicate C 0, USIZE_pos, USIZE_pos, ?_⟩
  show wsub 0 0 ≤ C - 1
  have : wsub 0 0 = 0 := by decide
  omega

theorem list_ext_getD {α : Type} [Zero α] {l1 l2 : List α}
    (hlen : l1.length = l2.length)
    (h : ∀ i, i < l1.length → l1.getD i 0 = l2.getD i 0) : l1 = l2 := by
  apply List.ext_getElem hlen
  intro i h1 h2
  have hi := h i h1
  rwa [List.getD_eq_getElem?_getD, List.getD_eq_getElem?_getD,
    List.getElem?_eq_getElem h1, List.getElem?_eq_getElem h2] at hi

theorem getD_map_range {α : Type} [Zero α] (f : ℕ → α) {n i : ℕ} (h : i < n) :
    ((List.range n).map f).getD i 0 = f i := by
  rw [List.getD_eq_getElem?_getD, List.getElem?_map, List.getElem?_range h]
  rfl

theorem getD_append_left {α : Type} [Zero α] {l1 l2 : List α} {i : ℕ}
    (h : i < l1.length) : (l1 ++ l2).getD i 0 = l1.getD i 0 := by
  rw [List.getD_eq_getElem?_getD, List.getD_eq_getElem?_getD,
    List.getElem?_append_left h]

theorem getD_append_right {α : Type} [Zero α] {l1 l2 : List α} {i : ℕ}
    (h : l1.length ≤ i) : (l1 ++ l2).getD i 0 = l2.getD (i - l1.length) 0 := by
  rw [List.getD_eq_getElem?_getD, List.getD_eq_getElem?_getD,
    List.getElem?_append_right h]

theorem add_wsub_cancel {a b : ℕ} (ha : a < USIZE) (hb : b < USIZE) :
    (b + wsub a b) % USIZE = a := by
  unfold wsub
  rw [Nat.mod_eq_of_lt hb, Nat.add_mod_mod]
  have h1 : b + (a + (USIZE - b)) = a + USIZE := by omega
  rw [h1, Nat.add_mod_right, Nat.mod_eq_of_lt ha]


theorem getD_take {α : Type} [Zero α] {l : List α} {n i : ℕ} (h : i < n) :
    (l.take n).getD i 0 = l.getD i 0 := by
  rw [List.getD_eq_getElem?_getD, List.getD_eq_getElem?_getD,
    List.getElem?_take, if_pos h]

theorem add_mod_inj {C x a b : ℕ} (ha : a < C) (hb : b < C)
    (h : (x + a) % C = (x + b) % C) : a = b := by
  have h1 : a ≡ b [MOD C] := Nat.ModEq.add_left_cancel' x h
  rwa [Nat.ModEq, Nat.mod_eq_of_lt ha, Nat.mod_eq_of_lt hb] at h1

theorem mod_usize_add_mod {C : ℕ} (hdvd : C ∣ USIZE) (x j : ℕ) :
    (x % USIZE + j) % C = (x + j) % C := by
  conv_lhs => rw [Nat.add_mod, Nat.mod_mod_of_dvd x hdvd, ← Nat.add_mod]

/-- The write position, seen modulo the capacity, sits `available_read`
slots past the read position. -/
theorem wp_mod {α : Type} {C : ℕ} {rb : RingBuffer α} (h : RingInv C rb)
    (j : ℕ) :
    (rb.write_pos + j) % C = (rb.read_pos + (rb.available_read + j)) % C := by
  have hw : (rb.read_pos + rb.available_read) % USIZE = rb.write_pos :=
    add_wsub_cancel h.wp h.rp
  conv_lhs => rw [← hw, mod_usize_add_mod h.cap_dvd, Nat.add_assoc]

/-- Unfolding equation for `RingBuffer::write`. -/
theorem write_eq {α : Type} [Zero α] (rb : RingBuffer α) (data : List α) :
    rb.write data =
      (if min data.length rb.available_write = 0 then (0, rb)
       else (min data.length rb.available_write,
         { rb with
            buffer := (List.range (min data.length rb.available_write)).foldl
              (fun b i => b.set (rb.idx (rb.write_pos + i)) (data.getD i 0))
              rb.buffer
            write_pos :=
              (rb.write_pos + min data.length rb.available_write) % USIZE })) :=
  rfl

/-- Unfolding equation for `RingBuffer::read`. -/
theorem read_eq {α : Type} [Zero α] (rb : RingBuffer α) (len : ℕ) :
    rb.read len =
      (if min len rb.available_read = 0 then ([], rb)
       else ((List.range (min len rb.available_read)).map
              (fun i => rb.buffer.getD (rb.idx (rb.read_pos + i)) 0),
             { rb with
                read_pos := (rb.read_pos + min len rb.available_read) % USIZE })) :=
  rfl

theorem available_read_eq_wsub {α : Type} (rb : RingBuffer α) :
    rb.available_read = wsub rb.write_pos rb.read_pos := rfl

theorem available_write_eq {α : Type} {C : ℕ} {rb : RingBuffer α}
    (h : RingInv C rb) : rb.available_write = C - 1 - rb.available_read := by
  have hpos := h.cap_pos
  have hlt := h.cap_lt
  unfold RingBuffer.available_write
  rw [h.cap, wsub_of_le (by omega) hlt, wsub_of_le h.used (by omega)]
  rfl

/-- The number of samples a write accepts: the length of the input capped
by the free space `C - 1 - used`. -/
theorem write_fst {α : Type} [Zero α] {C : ℕ} {rb : RingBuffer α}
    (h : RingInv C rb) (data : List α) :
    (rb.write data).1 = min data.length (C - 1 - rb.available_read) := by
  rw [write_eq, available_write_eq h]
  by_cases h0 : min data.length (C - 1 - rb.available_read) = 0
  · rw [if_pos h0, h0]
  · rw [if_neg h0]

theorem write_inv {α : Type} [Zero α] {C : ℕ} {rb : RingBuffer α}
    (h : RingInv C rb) (data : List α) : RingInv C (rb.write data).2 := by
  rw [write_eq]
  by_cases h0 : min data.length rb.available_write = 0
  · rw [if_pos h0]; exact h
  · rw [if_neg h0]
    have hav := available_write_eq h
    have hmle : min data.length rb.available_write ≤ rb.available_write :=
      min_le_right _ _
    have hu := available_read_eq_wsub rb
    have hClt := h.cap_lt
    have hused := h.used
    refine ⟨h.pow, h.cap, h.mask, ?_, Nat.mod_lt _ USIZE_pos, h.rp, ?_⟩
    · dsimp only
      rw [foldl_set_length]; exact h.blen
    · show wsub ((rb.write_pos + min data.length rb.available_write) % USIZE)
        rb.read_pos ≤ C - 1
      have hw : (rb.read_pos + rb.available_read) % USIZE = rb.write_pos :=
        add_wsub_cancel h.wp h.rp
      conv_lhs => rw [← hw, Nat.mod_add_mod, Nat.add_assoc]
      rw [wsub_add_cancel h.rp (by omega)]
      omega

/-- After a write the in-flight samples are the old ones followed by the
accepted prefix of the input: `write` copies exactly the prefix whose
length it returns, and overwrites no un-read slot. -/
theorem write_pending {α : Type} [Zero α] {C : ℕ} {rb : RingBuffer α}
    (h : RingInv C rb) (data : List α) :
    (rb.write data).2.pending = rb.pending ++ data.take (rb.write data).1 := by
  by_cases h0 : min data.length rb.available_write = 0
  · rw [write_eq, if_pos h0]
    simp
  · set t := min data.length rb.available_write with hdef
    set B := (List.range t).foldl
      (fun b i => b.set (rb.idx (rb.write_pos + i)) (data.getD i 0)) rb.buffer
      with hBdef
    have hw1 : (rb.write data).1 = t := by rw [write_eq, if_neg h0]
    have hw2 : (rb.write data).2 =
        { rb with buffer := B, write_pos := (rb.write_pos + t) % USIZE } := by
      rw [write_eq, if_neg h0]
    have hinv2 : RingInv C
        { rb with buffer := B, write_pos := (rb.write_pos + t) % USIZE } :=
      hw2 ▸ write_inv h data
    rw [hw1, hw2]
    set u := rb.available_read with hudef
    have huw : u = wsub rb.write_pos rb.read_pos := rfl
    have htd : t ≤ data.length := min_le_left _ _
    have htu : u + t ≤ C - 1 := by
      have h1 := available_write_eq h
      have h2 : t ≤ rb.available_write := min_le_right _ _
      have h3 := h.used
      omega
    have hClt := h.cap_lt
    have hCpos := h.cap_pos
    have hused' : wsub ((rb.write_pos + t) % USIZE) rb.read_pos = u + t := by
      have hw : (rb.read_pos + u) % USIZE = rb.write_pos :=
        add_wsub_cancel h.wp h.rp
      conv_lhs => rw [← hw, Nat.mod_add_mod, Nat.add_assoc]
      exact wsub_add_cancel h.rp (by omega)
    apply list_ext_getD
    · rw [pending_length]
      show wsub ((rb.write_pos + t) % USIZE) rb.read_pos = _
      rw [hused', List.length_append, pending_length, List.length_take,
        ← huw, min_eq_left htd]
    · intro i hi
      rw [pending_length] at hi
      have hiut : i < u + t := by
        rw [← hused']
        exact hi
      unfold RingBuffer.pending
      dsimp only
      rw [hused', getD_map_range _ hiut, idx_eq_mod hinv2]
      by_cases hcase : i < u
      · -- untouched slot: old pending sample survives
        rw [getD_append_left
          (by rw [List.length_map, List.length_range, ← huw]; exact hcase)]
        rw [getD_map_range _ (huw ▸ hcase), idx_eq_mod h, hBdef]
        apply foldl_set_getD_ne
        intro j hj hne
        rw [idx_eq_mod h, wp_mod h j] at hne
        have := add_mod_inj (x := rb.read_pos) (by omega) (by omega) hne
        omega
      · -- freshly written slot: holds `data[i - u]`
        push_neg at hcase
        rw [getD_append_right
          (by rw [List.length_map, List.length_range, ← huw]; exact hcase)]
        rw [List.length_map, List.length_range, ← huw]
        rw [getD_take (by omega)]
        have hju : i - u < t := by omega
        have heq : (rb.read_pos + i) % C = rb.idx (rb.write_pos + (i - u)) := by
          rw [idx_eq_mod h, wp_mod h (i - u)]
          congr 1
          omega
        rw [heq, hBdef]
        rw [foldl_set_getD_eq (fun j => rb.idx (rb.write_pos + j))
          (fun j => data.getD j 0) rb.buffer t hju ?_ ?_]
        · intro j hj1 hj2
          dsimp only
          rw [idx_eq_mod h, idx_eq_mod h, wp_mod h j, wp_mod h (i - u)]
          intro hne
          have := add_mod_inj (x := rb.read_pos) (by omega) (by omega) hne
          omega
        · dsimp only
          rw [idx_eq_mod h, h.blen]
          exact Nat.mod_lt _ hCpos

theorem getD_drop {α : Type} [Zero α] (l : List α) (n i : ℕ) :
    (l.drop n).getD i 0 = l.getD (n + i) 0 := by
  rw [List.getD_eq_getElem?_getD, List.getD_eq_getElem?_getD, List.getElem?_drop]

/-- A read delivers exactly the oldest `min len available` in-flight
samples, in FIFO order. -/
theorem read_fst {α : Type} [Zero α] {C : ℕ} {rb : RingBuffer α}
    (h : RingInv C rb) (len : ℕ) :
    (rb.read len).1 = rb.pending.take (min len rb.available_read) := by
  rw [read_eq]
  by_cases h0 : min len rb.available_read = 0
  · rw [if_pos h0, h0, List.take_zero]
  · rw [if_neg h0]
    unfold RingBuffer.pending
    rw [← available_read_eq_wsub, ← List.map_take, List.take_range,
      min_eq_left (min_le_right len rb.available_read)]

/-- The state after a read: only `read_pos` advances (by the number of
samples delivered). -/
theorem read_snd {α : Type} [Zero α] {C : ℕ} {rb : RingBuffer α}
    (h : RingInv C rb) (len : ℕ) :
    (rb.read len).2 =
      { rb with
        read_pos := (rb.read_pos + min len rb.available_read) % USIZE } := by
  rw [read_eq]
  by_cases h0 : min len rb.available_read = 0
  · rw [if_pos h0, h0]
    show rb = _
    conv_rhs => rw [Nat.add_zero, Nat.mod_eq_of_lt h.rp]
  · rw [if_neg h0]

theorem wsub_after_read {α : Type} {C : ℕ} {rb : RingBuffer α}
    (h : RingInv C rb) (t : ℕ) (htu : t ≤ rb.available_read) :
    wsub rb.write_pos ((rb.read_pos + t) % USIZE) =
      rb.available_read - t := by
  have hu := available_read_eq_wsub rb
  have huU : rb.available_read < USIZE := by
    have := h.used
    have := h.cap_lt
    omega
  have hw : (rb.read_pos + rb.available_read) % USIZE = rb.write_pos :=
    add_wsub_cancel h.wp h.rp
  have hsplit : ((rb.read_pos + t) % USIZE + (rb.available_read - t)) % USIZE
      = rb.write_pos := by
    rw [Nat.mod_add_mod, Nat.add_assoc, Nat.add_sub_cancel' htu, hw]
  conv_lhs => rw [← hsplit]
  exact wsub_add_cancel (Nat.mod_lt _ USIZE_pos) (by omega)

theorem read_inv {α : Type} [Zero α] {C : ℕ} {rb : RingBuffer α}
    (h : RingInv C rb) (len : ℕ) : RingInv C (rb.read len).2 := by
  rw [read_snd h]
  refine ⟨h.pow, h.cap, h.mask, h.blen, h.wp, Nat.mod_lt _ USIZE_pos, ?_⟩
  show wsub rb.write_pos ((rb.read_pos + min len rb.available_read) % USIZE)
      ≤ C - 1
  rw [wsub_after_read h _ (min_le_right _ _)]
  have h1 := h.used
  have h2 := available_read_eq_wsub rb
  omega

/-- After a read the in-flight samples are the old ones with the
delivered prefix removed. -/
theorem read_pending {α : Type} [Zero α] {C : ℕ} {rb : RingBuffer α}
    (h : RingInv C rb) (len : ℕ) :
    (rb.read len).2.pending = rb.pending.drop (min len rb.available_read) := by
  rw [read_snd h]
  set t := min len rb.available_read with htdef
  have htu : t ≤ rb.available_read := min_le_right _ _
  have hinv2 : RingInv C
      { rb with read_pos := (rb.read_pos + t) % USIZE } :=
    (read_snd h len) ▸ read_inv h len
  apply list_ext_getD
  · rw [pending_length]
    show wsub rb.write_pos ((rb.read_pos + t) % USIZE) = _
    rw [wsub_after_read h t htu, List.length_drop, pending_length,
      ← available_read_eq_wsub]
  · intro i hi
    rw [pending_length] at hi
    have hi' : i < rb.available_read - t := by
      have : wsub rb.write_pos ((rb.read_pos + t) % USIZE)
          = rb.available_read - t := wsub_after_read h t htu
      exact this ▸ hi
    unfold RingBuffer.pending
    dsimp only
    rw [show wsub rb.write_pos ((rb.read_pos + t) % USIZE)
        = rb.available_read - t from wsub_after_read h t htu]
    rw [getD_map_range _ hi', idx_eq_mod hinv2, mod_usize_add_mod h.cap_dvd,
      getD_drop, ← available_read_eq_wsub]
    rw [getD_map_range _ (by omega : t + i < rb.available_read),
      idx_eq_mod h, Nat.add_assoc]

theorem clear_inv {α : Type} {C : ℕ} {rb : RingBuffer α}
    (h : RingInv C rb) : RingInv C rb.clear := by
  refine ⟨h.pow, h.cap, h.mask, h.blen, USIZE_pos, USIZE_pos, ?_⟩
  show wsub 0 0 ≤ C - 1
  have : wsub 0 0 = 0 := by decide
  omega

/-- Every reachable ring-buffer state satisfies the structural
invariant. -/
theorem reachable_inv {α : Type} [Zero α] {C : ℕ} {rb : RingBuffer α}
    (h : RingReachable α C rb) : RingInv C rb := by
  induction h with
  | new hpow => exact ringInv_new hpow
  | write rb data _ ih => exact write_inv ih data
  | read rb len _ ih => exact read_inv ih len
  | clear rb _ ih => exact clear_inv ih

-- ─── SPSC trace semantics ───

/-- One call issued to the ring buffer on the sequentially-observed SPSC
schedule: a producer `write` or a consumer `read` (of an output slice of
the given length). -/
inductive RingOp (α : Type) where
  | write (data : List α)
  | read (len : ℕ)

/-- A trace state: the buffer, the concatenation of the prefixes accepted
by the `write` calls so far, and the concatenation of the samples
delivered by the `read` calls so far. -/
structure RunState (α : Type) where
  rb : RingBuffer α
  written : List α
  delivered : List α

def runOp {α : Type} [Zero α] (s : RunState α) : RingOp α → RunState α
  | .write data =>
    let r := s.rb.write data
    { rb := r.2, written := s.written ++ data.take r.1,
      delivered := s.delivered }
  | .read len =>
    let r := s.rb.read len
    { rb := r.2, written := s.written, delivered := s.delivered ++ r.1 }

def runOps {α : Type} [Zero α] (s : RunState α) (ops : List (RingOp α)) :
    RunState α :=
  ops.foldl runOp s

def initRun (α : Type) [Zero α] (C : ℕ) : RunState α :=
  { rb := RingBuffer.new α C, written := [], delivered := [] }

/-- Trace invariant: everything accepted so far is what was delivered so
far followed by the in-flight samples. -/
def FifoInv {α : Type} [Zero α] (C : ℕ) (s : RunState α) : Prop :=
  RingInv C s.rb ∧ s.written = s.delivered ++ s.rb.pending

theorem new_pending {α : Type} [Zero α] (C : ℕ) :
    (RingBuffer.new α C).pending = [] := by
  unfold RingBuffer.pending RingBuffer.new
  have : wsub 0 0 = 0 := by decide
  rw [this]
  rfl

theorem fifoInv_init {α : Type} [Zero α] {C : ℕ}
    (hC : ∃ k, k ≤ 63 ∧ C = 2 ^ k) : FifoInv C (initRun α C) := by
  refine ⟨ringInv_new hC, ?_⟩
  show ([] : List α) = [] ++ (RingBuffer.new α C).pending
  rw [new_pending, List.append_nil]

theorem fifoInv_step {α : Type} [Zero α] {C : ℕ} {s : RunState α}
    (h : FifoInv C s) (op : RingOp α) : FifoInv C (runOp s op) := by
  obtain ⟨hinv, habs⟩ := h
  cases op with
  | write data =>
    refine ⟨write_inv hinv data, ?_⟩
    show s.written ++ data.take (s.rb.write data).1
      = s.delivered ++ (s.rb.write data).2.pending
    rw [write_pending hinv data, habs, List.append_assoc]
  | read len =>
    refine ⟨read_inv hinv len, ?_⟩
    show s.written = (s.delivered ++ (s.rb.read len).1)
      ++ (s.rb.read len).2.pending
    rw [read_fst hinv len, read_pending hinv len, habs, List.append_assoc,
      List.take_append_drop]

theorem fifoInv_run {α : Type} [Zero α] {C : ℕ} {s : RunState α}
    (h : FifoInv C s) (ops : List (RingOp α)) : FifoInv C (runOps s ops) := by
  induction ops generalizing s with
  | nil => exact h
  | cons op ops ih => exact ih (fifoInv_step h op)

/-- C2: for every sequence of `write(xs)` / `read(ys)` calls on an SPSC
schedule observed sequentially, the concatenation of the samples
delivered by the reads is a prefix of the concatenation of the prefixes
the writes accepted (each write copies exactly the prefix of its input
whose length it returns). -/
theorem claim_C2_ring_fifo (C : ℕ) (hC : ∃ k, k ≤ 63 ∧ C = 2 ^ k)
    (ops : List (RingOp ℚ)) :
    ∃ t, (runOps (initRun ℚ C) ops).delivered ++ t
      = (runOps (initRun ℚ C) ops).written :=
  ⟨(runOps (initRun ℚ C) ops).rb.pending,
    ((fifoInv_run (fifoInv_init hC) ops).2).symm⟩

/-- Witness for C2: a concrete trace on a capacity-4 ring: write 3
samples, read 2 of them; the delivered `[1, 2]` is a prefix of the
written `[1, 2, 3]`. -/
theorem claim_C2_ring_fifo_witness :
    (∃ t, (runOps (initRun ℚ 4) [RingOp.write [1, 2, 3], RingOp.read 2]).delivered
        ++ t
      = (runOps (initRun ℚ 4) [RingOp.write [1, 2, 3], RingOp.read 2]).written) ∧
    (runOps (initRun ℚ 4) [RingOp.write [1, 2, 3], RingOp.read 2]).delivered
      = [1, 2] ∧
    (runOps (initRun ℚ 4) [RingOp.write [1, 2, 3], RingOp.read 2]).written
      = [1, 2, 3] :=
  ⟨claim_C2_ring_fifo 4 ⟨2, by decide, rfl⟩ _, by decide, by decide⟩

/-- C4: at every reachable ring-buffer state,
`available_read + available_write = C - 1`. -/
theorem claim_C4_ring_accounting (C : ℕ) (rb : RingBuffer ℚ)
    (h : RingReachable ℚ C rb) :
    rb.available_read + rb.available_write = C - 1 := by
  have hinv := reachable_inv h
  have h1 := available_write_eq hinv
  have h2 := hinv.used
  have h3 := available_read_eq_wsub rb
  omega

/-- Witness for C4: after writing two samples into a fresh capacity-4
ring, `available_read = 2`, `available_write = 1`, and they sum to 3. -/
theorem claim_C4_ring_accounting_witness :
    ((RingBuffer.new ℚ 4).write [1, 2]).2.available_read +
      ((RingBuffer.new ℚ 4).write [1, 2]).2.available_write = 3 ∧
    ((RingBuffer.new ℚ 4).write [1, 2]).2.available_read = 2 :=
  ⟨claim_C4_ring_accounting 4 _
      (RingReachable.write _ _ (RingReachable.new ⟨2, by decide, rfl⟩)),
    by decide⟩

-- ─── ReplayGain (replaygain.rs) ───

/-- `ReplayGainMode` from engine.rs. -/
inductive ReplayGainMode where
  | Off
  | Track
  | Album
deriving DecidableEq

/-- `ReplayGainInfo`: the four optional tag values.  `f32` gain and peak
values are modelled as exact rationals. -/
structure ReplayGainInfo where
  track_gain_db : Option ℚ
  track_peak : Option ℚ
  album_gain_db : Option ℚ
  album_peak : Option ℚ
deriving DecidableEq

/-- `ReplayGainInfo::default()`. -/
def ReplayGainInfo.default : ReplayGainInfo :=
  { track_gain_db := none, track_peak := none,
    album_gain_db := none, album_peak := none }

/-- `ReplayGainState`. -/
structure ReplayGainState where
  mode : ReplayGainMode
  clipping_prevention : Bool
  info : ReplayGainInfo
  gain_linear : ℚ
deriving DecidableEq

/-- `ReplayGainState::new()`. -/
def ReplayGainState.new : ReplayGainState :=
  { mode := .Off, clipping_prevention := true,
    info := ReplayGainInfo.default, gain_linear := 1 }

/-- `f32::EPSILON` = 2⁻²³. -/
def f32_epsilon : ℚ := 1 / 2 ^ 23

/-- `ReplayGainState::recalculate_gain`, parametrised by the
transcendental helper `db_to_linear(db) = 10^(db/20)` from engine.rs
(kept abstract: its exact value is irrational; every theorem below holds
for an arbitrary such function). -/
def recalculate_gain (db_to_linear : ℚ → ℚ) (st : ReplayGainState) :
    ReplayGainState :=
  match st.mode with
  | .Off => { st with gain_linear := 1 }
  | m =>
    let gain_db : Option ℚ :=
      match m with
      | .Track => st.info.track_gain_db
      | .Album => st.info.album_gain_db.or st.info.track_gain_db
      | .Off => none
    match gain_db with
    | none => { st with gain_linear := 1 }
    | some db =>
      let gain := db_to_linear db
      let gain :=
        if st.clipping_prevention then
          let peak : Option ℚ :=
            match m with
            | .Track => st.info.track_peak
            | .Album => st.info.album_peak.or st.info.track_peak
            | .Off => none
          match peak with
          | some peak =>
            if peak > 0 then (if gain > 1 / peak then 1 / peak else gain)
            else gain
          | none => gain
        else gain
      { st with gain_linear := gain }

/-- `ReplayGainState::set_mode`. -/
def set_mode (db_to_linear : ℚ → ℚ) (st : ReplayGainState)
    (m : ReplayGainMode) : ReplayGainState :=
  recalculate_gain db_to_linear { st with mode := m }

/-- `ReplayGainState::set_clipping_prevention`. -/
def set_clipping_prevention (db_to_linear : ℚ → ℚ) (st : ReplayGainState)
    (flag : Bool) : ReplayGainState :=
  recalculate_gain db_to_linear { st with clipping_prevention := flag }

/-- `ReplayGainState::load_from_file`, abstracted over the tag values the
file yielded (`read_replaygain_tags(path).unwrap_or_default()`). -/
def load_info (db_to_linear : ℚ → ℚ) (st : ReplayGainState)
    (info : ReplayGainInfo) : ReplayGainState :=
  recalculate_gain db_to_linear { st with info := info }

/-- `ReplayGainState::apply` on a buffer of interleaved samples.  The
`f32` multiply is modelled exactly. -/
def ReplayGainState.apply (st : ReplayGainState) (samples : List ℚ) :
    List ℚ :=
  if |st.gain_linear - 1| < f32_epsilon then samples
  else samples.map (fun s => s * st.gain_linear)

/-- The replay-gain states the engine can actually hold: created by
`new()` and mutated only through the setters (each of which ends in
`recalculate_gain`). -/
inductive RGReachable (db_to_linear : ℚ → ℚ) : ReplayGainState → Prop where
  | new : RGReachable db_to_linear ReplayGainState.new
  | set_mode (st : ReplayGainState) (m : ReplayGainMode) :
      RGReachable db_to_linear st →
      RGReachable db_to_linear (set_mode db_to_linear st m)
  | set_clipping (st : ReplayGainState) (flag : Bool) :
      RGReachable db_to_linear st →
      RGReachable db_to_linear (set_clipping_prevention db_to_linear st flag)
  | load (st : ReplayGainState) (info : ReplayGainInfo) :
      RGReachable db_to_linear st →
      RGReachable db_to_linear (load_info db_to_linear st info)

/-- The gain the given mode selects, per the spec wording (Track → track
gain; Album → album gain falling back to track gain). -/
def selected_gain_db (mode : ReplayGainMode) (info : ReplayGainInfo) :
    Option ℚ :=
  match mode with
  | .Off => none
  | .Track => info.track_gain_db
  | .Album => info.album_gain_db.or info.track_gain_db

/-- The peak the given mode selects (Track → track peak; Album → album
peak falling back to track peak). -/
def selected_peak (mode : ReplayGainMode) (info : ReplayGainInfo) :
    Option ℚ :=
  match mode with
  | .Off => none
  | .Track => info.track_peak
  | .Album => info.album_peak.or info.track_peak

/-- Modelled from the spec: the `gain_linear` value claim C3 describes —
`1` when mode is Off or the selected gain is missing, otherwise
`db_to_linear gain_db` clamped to at most `1/peak` when clipping
prevention is on and the selected peak is present and positive. -/
def gain_linear_spec (db_to_linear : ℚ → ℚ) (mode : ReplayGainMode)
    (clipping : Bool) (info : ReplayGainInfo) : ℚ :=
  match mode, selected_gain_db mode info with
  | .Off, _ => 1
  | _, none => 1
  | _, some db =>
    let g := db_to_linear db
    match (if clipping then selected_peak mode info else none) with
    | some peak => if 0 < peak then min g (1 / peak) else g
    | none => g

/-- The code's clamped gain agrees with the spec's description of
`recalculate_gain`, for every `db_to_linear`. -/
theorem recalculate_gain_eq_spec (db_to_linear : ℚ → ℚ)
    (st : ReplayGainState) :
    (recalculate_gain db_to_linear st).gain_linear
      = gain_linear_spec db_to_linear st.mode st.clipping_prevention st.info := by
  rcases st with ⟨mode, clip, info, gl⟩
  rcases info with ⟨tg, tp, ag, ap⟩
  unfold recalculate_gain gain_linear_spec selected_gain_db selected_peak
  cases mode <;> cases clip <;> cases tg <;> cases tp <;> cases ag <;>
    cases ap <;>
    simp only [Option.or] <;>
    simp [min_def] <;>
    split_ifs <;> first | rfl | linarith

/-- C3: `recalculate_gain` stores `gain_linear = 1` when the mode is Off
or the selected gain (track gain for Track; album gain falling back to
track gain for Album) is missing; otherwise it stores
`db_to_linear gain_db` clamped to at most `1/peak` when clipping
prevention is on and the selected peak is present and positive
(`gain_linear_spec` states exactly this); consequently in the clamped
case `gain_linear × peak ≤ 1` (exactly, in the rational model). -/
theorem claim_C3_recalculate_gain (db_to_linear : ℚ → ℚ)
    (st : ReplayGainState) :
    (recalculate_gain db_to_linear st).gain_linear
      = gain_linear_spec db_to_linear st.mode st.clipping_prevention st.info ∧
    (∀ db peak : ℚ, selected_gain_db st.mode st.info = some db →
      st.clipping_prevention = true →
      selected_peak st.mode st.info = some peak → 0 < peak →
      (recalculate_gain db_to_linear st).gain_linear * peak ≤ 1) := by
  refine ⟨recalculate_gain_eq_spec db_to_linear st, ?_⟩
  intro db peak hdb hclip hpk hpos
  rw [recalculate_gain_eq_spec]
  have hmin : min (db_to_linear db) (1 / peak) * peak ≤ 1 := by
    calc min (db_to_linear db) (1 / peak) * peak
        ≤ (1 / peak) * peak :=
          mul_le_mul_of_nonneg_right (min_le_right _ _) hpos.le
      _ = 1 := one_div_mul_cancel (ne_of_gt hpos)
  cases hm : st.mode with
  | Off =>
    rw [hm] at hdb
    exact absurd hdb (by simp [selected_gain_db])
  | Track =>
    rw [hm] at hdb hpk
    unfold gain_linear_spec
    rw [hdb, hclip, hpk]
    simpa [hpos] using hmin
  | Album =>
    rw [hm] at hdb hpk
    unfold gain_linear_spec
    rw [hdb, hclip, hpk]
    simpa [hpos] using hmin

/-- Witness for C3 at a concrete state: Track mode, clipping prevention
on, track gain present, `db_to_linear` instantiated with a function
mapping the 6 dB tag to gain 2, and a track peak of 4/5: the stored gain
is clamped to 5/4 and `5/4 × 4/5 = 1 ≤ 1`. -/
theorem claim_C3_recalculate_gain_witness :
    (recalculate_gain (fun _ => 2)
        { mode := .Track, clipping_prevention := true,
          info := { track_gain_db := some 6, track_peak := some (4 / 5),
                    album_gain_db := none, album_peak := none },
          gain_linear := 1 }).gain_linear
      = gain_linear_spec (fun _ => 2) .Track true
          { track_gain_db := some 6, track_peak := some (4 / 5),
            album_gain_db := none, album_peak := none } ∧
    (recalculate_gain (fun _ => 2)
        { mode := .Track, clipping_prevention := true,
          info := { track_gain_db := some 6, track_peak := some (4 / 5),
                    album_gain_db := none, album_peak := none },
          gain_linear := 1 }).gain_linear * (4 / 5) ≤ 1 ∧
    (recalculate_gain (fun _ => 2)
        { mode := .Track, clipping_prevention := true,
          info := { track_gain_db := some 6, track_peak := some (4 / 5),
                    album_gain_db := none, album_peak := none },
          gain_linear := 1 }).gain_linear = 5 / 4 := by
  refine ⟨(claim_C3_recalculate_gain (fun _ => 2) _).1,
    (claim_C3_recalculate_gain (fun _ => 2) _).2 6 (4 / 5) rfl rfl rfl
      (by norm_num), by norm_num [recalculate_gain]⟩

theorem recalculate_gain_mode (db_to_linear : ℚ → ℚ) (st : ReplayGainState) :
    (recalculate_gain db_to_linear st).mode = st.mode := by
  rcases st with ⟨mode, clip, info, gl⟩
  rcases info with ⟨tg, tp, ag, ap⟩
  cases mode <;> cases tg <;> cases ag <;> simp [recalculate_gain, Option.or]

theorem recalculate_gain_off (db_to_linear : ℚ → ℚ) (st : ReplayGainState)
    (h : st.mode = .Off) :
    (recalculate_gain db_to_linear st).gain_linear = 1 := by
  unfold recalculate_gain
  rw [h]

/-- In every state the engine can actually hold, mode Off forces
`gain_linear = 1` (each mutation ends in `recalculate_gain`). -/
theorem rg_mode_off_gain_one (db_to_linear : ℚ → ℚ) {st : ReplayGainState}
    (h : RGReachable db_to_linear st) :
    st.mode = .Off → st.gain_linear = 1 := by
  induction h with
  | new => intro _; rfl
  | set_mode st' m _ _ =>
    intro hoff
    unfold set_mode at hoff
    have hm := recalculate_gain_mode db_to_linear { st' with mode := m }
    rw [hm] at hoff
    exact recalculate_gain_off db_to_linear _ hoff
  | set_clipping st' flag _ _ =>
    intro hoff
    unfold set_clipping_prevention at hoff
    have hm := recalculate_gain_mode db_to_linear
      { st' with clipping_prevention := flag }
    rw [hm] at hoff
    exact recalculate_gain_off db_to_linear _ hoff
  | load st' info _ _ =>
    intro hoff
    unfold load_info at hoff
    have hm := recalculate_gain_mode db_to_linear { st' with info := info }
    rw [hm] at hoff
    exact recalculate_gain_off db_to_linear _ hoff

/-- C5: in every reachable state with mode Off, and more generally
whenever `|gain_linear − 1| < f32::EPSILON`, `apply` returns the buffer
unchanged (bit-identical); otherwise it multiplies every sample by
`gain_linear`. -/
theorem claim_C5_apply (db_to_linear : ℚ → ℚ) (st : ReplayGainState)
    (samples : List ℚ) :
    (RGReachable db_to_linear st → st.mode = .Off →
      st.apply samples = samples) ∧
    (|st.gain_linear - 1| < f32_epsilon → st.apply samples = samples) ∧
    (¬ |st.gain_linear - 1| < f32_epsilon →
      st.apply samples = samples.map (fun s => s * st.gain_linear)) := by
  refine ⟨?_, ?_, ?_⟩
  · intro hreach hoff
    have h1 := rg_mode_off_gain_one db_to_linear hreach hoff
    have h2 : |st.gain_linear - 1| < f32_epsilon := by
      rw [h1]
      norm_num [f32_epsilon]
    unfold ReplayGainState.apply
    rw [if_pos h2]
  · intro h2
    unfold ReplayGainState.apply
    rw [if_pos h2]
  · intro h2
    unfold ReplayGainState.apply
    rw [if_neg h2]

/-- Witness for C5: the freshly-created state (mode Off, gain 1) leaves
`[2, 3]` untouched, and a state with gain 2 multiplies `[3]` into
`[6]`. -/
theorem claim_C5_apply_witness :
    ReplayGainState.new.apply [2, 3] = [2, 3] ∧
    ({ mode := .Track, clipping_prevention := false,
        info := ReplayGainInfo.default,
        gain_linear := 2 } : ReplayGainState).apply [3] = [6] := by
  constructor
  · exact (claim_C5_apply id ReplayGainState.new [2, 3]).1 RGReachable.new rfl
  · have h := (claim_C5_apply id
      { mode := .Track, clipping_prevention := false,
        info := ReplayGainInfo.default, gain_linear := 2 } [3]).2.2
      (by norm_num [f32_epsilon])
    rw [h]
    norm_num

-- ─── IEEE value model for the places where NaN and infinities matter ───

/-- A float value: a finite exact value, a signed infinity, or NaN.
Finite values are exact rationals; the operations modelled below
(subtraction, absolute value, comparison, multiplication, saturating
cast) are exact on the inputs the theorems use, and NaN/infinity
propagation follows IEEE-754 as implemented by Rust `f32`/`f64`. -/
inductive F where
  | fin (q : ℚ)
  | inf (pos : Bool)
  | nan
deriving DecidableEq

/-- IEEE subtraction (as used on `f64` in the null test; exact in the
finite case — a nonzero difference of two floats never rounds to zero,
so the sign tests below are faithful). -/
def F.sub : F → F → F
  | .nan, _ => .nan
  | _, .nan => .nan
  | .inf a, .inf b => if a = b then .nan else .inf a
  | .inf a, .fin _ => .inf a
  | .fin _, .inf b => .inf (!b)
  | .fin a, .fin b => .fin (a - b)

/-- IEEE absolute value. -/
def F.abs : F → F
  | .nan => .nan
  | .inf _ => .inf true
  | .fin q => .fin |q|

/-- The IEEE comparison `x > 0.0` (false when `x` is NaN). -/
def F.gt_zero : F → Bool
  | .nan => false
  | .inf b => b
  | .fin q => decide (0 < q)

/-- The IEEE comparison `x < y` (false when either side is NaN). -/
def F.flt : F → F → Bool
  | .nan, _ => false
  | _, .nan => false
  | .inf a, .inf b => !a && b
  | .inf a, .fin _ => !a
  | .fin _, .inf b => b
  | .fin p, .fin q => decide (p < q)

/-- IEEE multiplication (finite × finite modelled exactly; the theorems
below use it only where the product is exactly representable, and
rounding never moves a product across the thresholds they compare
against). -/
def F.mul : F → F → F
  | .nan, _ => .nan
  | _, .nan => .nan
  | .inf a, .inf b => .inf (a == b)
  | .inf a, .fin q => if q = 0 then .nan else .inf (a == decide (0 < q))
  | .fin q, .inf b => if q = 0 then .nan else .inf (b == decide (0 < q))
  | .fin p, .fin q => .fin (p * q)

/-- IEEE equality test (`NaN` equal to nothing, both infinities of the
same sign equal). -/
def F.ieee_eq : F → F → Bool
  | .fin p, .fin q => p == q
  | .inf a, .inf b => a == b
  | _, _ => false

def F.is_fin : F → Bool
  | .fin _ => true
  | _ => false

/-- `u64::MAX`. -/
def u64_max : ℕ := 2 ^ 64 - 1

/-- The Rust saturating float-to-`u64` `as` cast: NaN and negative
values go to 0, values at or above `2^64` (and `+∞`) go to `u64::MAX`,
other finite values are truncated toward zero. -/
def F.to_u64_sat : F → ℕ
  | .nan => 0
  | .inf b => if b then u64_max else 0
  | .fin q => if q < 0 then 0 else min (Int.toNat ⌊q⌋) u64_max

/-- Rust `f32::clamp(self, min, max)`: `if self < min { min } else if
self > max { max } else { self }` — NaN propagates because both
comparisons are false on NaN. -/
def rust_clamp (x lo hi : F) : F :=
  let x1 := if F.flt x lo then lo else x
  if F.flt hi x1 then hi else x1

-- ─── Engine state and command handlers (engine.rs audio_thread) ───

/-- The observable state of the engine thread: the current output stream
(abstracted to whether one is held), the decoder-worker control atomics,
the atomic mirrors polled by the UI, the shared ring buffer and the
replay-gain mode relevant to `update_bit_perfect`.  `volume` is the
`f32` stored bit-for-bit in `AtomicU32` (the bit-cast round-trips, so it
is modelled by the value itself). -/
structure EngineState where
  stream_active : Bool
  decoder_running : Bool
  decoder_paused : Bool
  is_playing : Bool
  is_paused : Bool
  position_ms : ℕ
  duration_ms : ℕ
  seek_request_ms : ℕ
  volume : F
  dropout_count : ℕ
  is_bit_perfect : Bool
  bit_perfect_cb : Bool
  rg_mode : ReplayGainMode
  ring : RingBuffer ℚ
deriving DecidableEq

/-- `update_bit_perfect`: bit-perfect iff `(vol - 1.0).abs() <
f32::EPSILON` and the replay-gain mode is Off; stored into both atomic
flags. -/
def update_bit_perfect (st : EngineState) : EngineState :=
  let bp := F.flt ((st.volume.sub (F.fin 1)).abs) (F.fin f32_epsilon)
    && decide (st.rg_mode = ReplayGainMode.Off)
  { st with is_bit_perfect := bp, bit_perfect_cb := bp }

/-- The `Play(path)` handler up to the failed `AudioDecoder::open`: the
current playback is stopped first (`decoder_running.store(false)`,
`current_stream = None`, 50 ms sleep), then the open fails, the error is
logged and the handler `continue`s without touching anything else. -/
def handle_play_open_err (st : EngineState) : EngineState :=
  { st with decoder_running := false, stream_active := false }

/-- The `SetVolume(v)` handler: store `v.clamp(0.0, 1.0)` bit-atomically,
then recompute the bit-perfect flags. -/
def handle_set_volume (st : EngineState) (v : F) : EngineState :=
  update_bit_perfect { st with volume := rust_clamp v (F.fin 0) (F.fin 1) }

/-- The `Seek(secs)` handler: `ms = (secs * 1000.0) as u64` is published
to the seek-request atomic and to the position mirror. -/
def handle_seek (st : EngineState) (secs : F) : EngineState :=
  let ms := (secs.mul (F.fin 1000)).to_u64_sat
  { st with seek_request_ms := ms, position_ms := ms }

/-- The decoder worker's per-iteration seek test
(`seek_val != u64::MAX`): a seek is performed only when the request
differs from the `u64::MAX` sentinel. -/
def decoder_seek_pending (seek_val : ℕ) : Bool :=
  seek_val != u64_max

/-- Whether a stored volume is a finite value in `[0, 1]`. -/
def in_unit_interval : F → Bool
  | .fin q => decide (0 ≤ q ∧ q ≤ 1)
  | _ => false

/-- `RING_BUFFER_SIZE` from engine.rs. -/
def RING_BUFFER_SIZE : ℕ := 131072

/-- A state in which a track is playing: stream held, decoder worker
running. -/
def engine_state_busy : EngineState :=
  { stream_active := true, decoder_running := true, decoder_paused := false,
    is_playing := true, is_paused := false, position_ms := 1000,
    duration_ms := 5000, seek_request_ms := u64_max, volume := F.fin 1,
    dropout_count := 0, is_bit_perfect := true, bit_perfect_cb := true,
    rg_mode := .Off, ring := RingBuffer.new ℚ RING_BUFFER_SIZE }

/-- A quiescent state: no stream, decoder stopped. -/
def engine_state_idle : EngineState :=
  { stream_active := false, decoder_running := false, decoder_paused := false,
    is_playing := false, is_paused := false, position_ms := 0,
    duration_ms := 0, seek_request_ms := u64_max, volume := F.fin 1,
    dropout_count := 0, is_bit_perfect := true, bit_perfect_cb := true,
    rg_mode := .Off, ring := RingBuffer.new ℚ RING_BUFFER_SIZE }

/-- C6 counterexample: a `Play` whose decoder open fails does change the
engine state when playback is active — the handler first stops the
current playback (clears the decoder-running flag and drops the output
stream) before attempting the open. -/
theorem claim_C6_counterexample :
    handle_play_open_err engine_state_busy ≠ engine_state_busy :=
  fun h =>
    Bool.noConfusion
      (show false = true from congrArg EngineState.decoder_running h)

/-- C6 amended: a `Play(path)` whose decoder open fails does not start
playback and leaves every observable component unchanged — playback
flags, position and duration mirrors, seek request, volume, dropout
count, bit-perfect flags, replay-gain mode and ring buffer contents —
except that it first stops any current playback: the decoder-running
flag is cleared and the output stream is dropped.  In particular the
command is a no-op when nothing was playing. -/
theorem claim_C6_play_open_err (st : EngineState) :
    (handle_play_open_err st).decoder_running = false ∧
    (handle_play_open_err st).stream_active = false ∧
    (handle_play_open_err st).decoder_paused = st.decoder_paused ∧
    (handle_play_open_err st).is_playing = st.is_playing ∧
    (handle_play_open_err st).is_paused = st.is_paused ∧
    (handle_play_open_err st).position_ms = st.position_ms ∧
    (handle_play_open_err st).duration_ms = st.duration_ms ∧
    (handle_play_open_err st).seek_request_ms = st.seek_request_ms ∧
    (handle_play_open_err st).volume = st.volume ∧
    (handle_play_open_err st).dropout_count = st.dropout_count ∧
    (handle_play_open_err st).is_bit_perfect = st.is_bit_perfect ∧
    (handle_play_open_err st).bit_perfect_cb = st.bit_perfect_cb ∧
    (handle_play_open_err st).rg_mode = st.rg_mode ∧
    (handle_play_open_err st).ring = st.ring ∧
    (st.decoder_running = false → st.stream_active = false →
      handle_play_open_err st = st) := by
  refine ⟨rfl, rfl, rfl, rfl, rfl, rfl, rfl, rfl, rfl, rfl, rfl, rfl, rfl,
    rfl, ?_⟩
  intro h1 h2
  cases st
  simp_all [handle_play_open_err]

/-- Witness for C6 (amended): from the idle state the failed `Play` is a
no-op. -/
theorem claim_C6_play_open_err_witness :
    handle_play_open_err engine_state_idle = engine_state_idle :=
  (claim_C6_play_open_err
    engine_state_idle).2.2.2.2.2.2.2.2.2.2.2.2.2.2 rfl rfl

/-- C9 counterexample: `SetVolume(NaN)` stores NaN — Rust's
`f32::clamp` returns NaN for a NaN input, so the stored volume is not
in `[0, 1]`. -/
theorem claim_C9_counterexample :
    in_unit_interval (handle_set_volume engine_state_idle F.nan).volume
        = false ∧
    (handle_set_volume engine_state_idle F.nan).volume = F.nan := by
  exact ⟨rfl, rfl⟩

/-- C9 amended: for every non-NaN `f32` argument (including the two
infinities) the volume stored by `SetVolume` is a finite value in
`[0, 1]`; a NaN argument is stored as NaN. -/
theorem claim_C9_set_volume (st : EngineState) (v : F) (hv : v ≠ F.nan) :
    in_unit_interval (handle_set_volume st v).volume = true := by
  have hvol : (handle_set_volume st v).volume
      = rust_clamp v (F.fin 0) (F.fin 1) := rfl
  rw [hvol]
  cases v with
  | nan => exact absurd rfl hv
  | inf b => cases b <;> rfl
  | fin q =>
    unfold rust_clamp
    by_cases h0 : q < 0
    · simp [F.flt, h0, in_unit_interval]
      norm_num
    · by_cases h1 : 1 < q
      · simp [F.flt, h0, h1, in_unit_interval]
      · simp [F.flt, h0, h1, in_unit_interval]
        constructor <;> linarith

/-- Witness for C9 (amended): `SetVolume(2.0)` stores the clamped value
`1.0`, which lies in `[0, 1]`. -/
theorem claim_C9_set_volume_witness :
    in_unit_interval (handle_set_volume engine_state_idle (F.fin 2)).volume
        = true ∧
    (handle_set_volume engine_state_idle (F.fin 2)).volume = F.fin 1 :=
  ⟨claim_C9_set_volume engine_state_idle (F.fin 2) (by decide), by decide⟩

/-- C10: any finite seek position whose millisecond value
`secs * 1000.0` reaches `2^64` saturates, under the Rust `as u64` cast,
to `u64::MAX` — exactly the sentinel meaning "no seek pending" — so the
handler stores a request the decoder worker will never act on
(`decoder_seek_pending u64_max = false`) while `position_ms` is
nevertheless set to that same value; negative and NaN positions
saturate to 0 instead of being rejected. -/
theorem claim_C10_seek_saturation (st : EngineState) :
    (∀ q : ℚ, (2 ^ 64 : ℚ) ≤ q * 1000 →
      (handle_seek st (F.fin q)).seek_request_ms = u64_max ∧
      (handle_seek st (F.fin q)).position_ms = u64_max) ∧
    decoder_seek_pending u64_max = false ∧
    (∀ q : ℚ, q < 0 →
      (handle_seek st (F.fin q)).seek_request_ms = 0 ∧
      (handle_seek st (F.fin q)).position_ms = 0) ∧
    ((handle_seek st F.nan).seek_request_ms = 0 ∧
      (handle_seek st F.nan).position_ms = 0) := by
  have hms : ∀ q : ℚ, (handle_seek st (F.fin q)).seek_request_ms
      = (F.fin (q * 1000)).to_u64_sat := fun q => rfl
  have hps : ∀ q : ℚ, (handle_seek st (F.fin q)).position_ms
      = (F.fin (q * 1000)).to_u64_sat := fun q => rfl
  have hsat : ∀ q : ℚ, (2 ^ 64 : ℚ) ≤ q * 1000 →
      (F.fin (q * 1000)).to_u64_sat = u64_max := by
    intro q hq
    unfold F.to_u64_sat
    dsimp only
    rw [if_neg (not_lt.mpr (le_trans (by norm_num) hq))]
    have hf : (2 ^ 64 : ℤ) ≤ ⌊q * 1000⌋ := by
      rw [Int.le_floor]
      push_cast
      exact hq
    have h1 : (0 : ℤ) ≤ ⌊q * 1000⌋ := le_trans (by norm_num) hf
    have h2 : u64_max ≤ (⌊q * 1000⌋).toNat := by
      rw [Int.le_toNat h1]
      refine le_trans ?_ hf
      unfold u64_max
      push_cast
    exact min_eq_right h2
  have hneg : ∀ q : ℚ, q < 0 → (F.fin (q * 1000)).to_u64_sat = 0 := by
    intro q hq
    unfold F.to_u64_sat
    dsimp only
    rw [if_pos (mul_neg_of_neg_of_pos hq (by norm_num))]
  exact ⟨fun q hq => ⟨(hms q).trans (hsat q hq), (hps q).trans (hsat q hq)⟩,
    by decide,
    fun q hq => ⟨(hms q).trans (hneg q hq), (hps q).trans (hneg q hq)⟩,
    rfl, rfl⟩

/-- Witness for C10: seeking to `2^70` seconds (a finite `f64`, whose
product with 1000 is exactly representable) stores `u64::MAX` — the
"no seek pending" sentinel — into both the seek request and the
position mirror; `-5` seconds and NaN saturate to 0. -/
theorem claim_C10_seek_saturation_witness :
    (handle_seek engine_state_idle (F.fin (2 ^ 70))).seek_request_ms
        = u64_max ∧
    (handle_seek engine_state_idle (F.fin (2 ^ 70))).position_ms = u64_max ∧
    decoder_seek_pending u64_max = false ∧
    (handle_seek engine_state_idle (F.fin (-5))).seek_request_ms = 0 ∧
    (handle_seek engine_state_idle F.nan).seek_request_ms = 0 := by
  obtain ⟨h1, h2, h3, h4, -⟩ := claim_C10_seek_saturation engine_state_idle
  exact ⟨(h1 (2 ^ 70) (by norm_num)).1, (h1 (2 ^ 70) (by norm_num)).2, h2,
    (h3 (-5) (by norm_num)).1, h4⟩

-- ─── Null test (null_test.rs) ───

/-- The fields of `NullTestResult` the comparison logic determines
(`max_diff` and `rms_diff` are reporting-only float aggregates and are
not modelled; no claim mentions them). -/
structure NullTestOutcome where
  passed : Bool
  total_samples : ℕ
  diff_samples : ℕ
deriving DecidableEq

/-- The comparison phase of `run_null_test` (lines 69–119), applied to
the two independently decoded sample sequences: over the common prefix,
a pair counts as differing when `|a[i] − b[i]| > 0.0` under `f64`
arithmetic; a length mismatch adds the length difference; the test
passes iff the count is zero and the lengths match. -/
def null_test_compare (a b : List F) : NullTestOutcome :=
  let len := min a.length b.length
  let diff_count :=
    ((List.range len).filter
      (fun i => ((a.getD i F.nan).sub (b.getD i F.nan)).abs.gt_zero)).length
  let diff_count :=
    if a.length ≠ b.length then
      diff_count + ((a.length : ℤ) - (b.length : ℤ)).natAbs
    else diff_count
  let passed := diff_count == 0 && a.length == b.length
  { passed := passed, total_samples := len, diff_samples := diff_count }

/-- C8 counterexample: two decodes whose only pair is NaN versus 1.0 are
reported as `passed = true` — `NaN - 1.0 = NaN`, `NaN.abs() > 0.0` is
false, so the pair is never counted — although the samples are not
exactly equal. -/
theorem claim_C8_counterexample :
    (null_test_compare [F.nan] [F.fin 1]).passed = true ∧
    F.ieee_eq F.nan (F.fin 1) = false := by
  exact ⟨rfl, rfl⟩

theorem null_test_passed_iff (a b : List F) :
    (null_test_compare a b).passed = true ↔
      (a.length = b.length ∧ ∀ i, i < a.length →
        ((a.getD i F.nan).sub (b.getD i F.nan)).abs.gt_zero = false) := by
  have hpassed : (null_test_compare a b).passed =
      ((if a.length ≠ b.length then
          ((List.range (min a.length b.length)).filter
            (fun i => ((a.getD i F.nan).sub (b.getD i F.nan)).abs.gt_zero)).length
            + ((a.length : ℤ) - (b.length : ℤ)).natAbs
        else ((List.range (min a.length b.length)).filter
            (fun i => ((a.getD i F.nan).sub (b.getD i F.nan)).abs.gt_zero)).length)
          == 0
        && a.length == b.length) := rfl
  rw [hpassed]
  by_cases hab : a.length = b.length
  · rw [if_neg (not_not_intro hab), Bool.and_eq_true, beq_iff_eq, beq_iff_eq]
    rw [hab, min_self]
    constructor
    · rintro ⟨hzero, -⟩
      refine ⟨rfl, fun i hi => ?_⟩
      rw [List.length_eq_zero] at hzero
      have hmem := List.filter_eq_nil_iff.mp hzero i (List.mem_range.mpr hi)
      exact eq_false_of_ne_true hmem
    · rintro ⟨-, hpt⟩
      refine ⟨?_, rfl⟩
      rw [List.length_eq_zero, List.filter_eq_nil_iff]
      intro i hmem
      rw [hpt i (List.mem_range.mp hmem)]
      exact Bool.false_ne_true
  · rw [if_pos hab, Bool.and_eq_true, beq_iff_eq, beq_iff_eq]
    constructor
    · rintro ⟨-, h2⟩
      exact absurd h2 hab
    · rintro ⟨h1, -⟩
      exact absurd h1 hab

theorem sub_self_not_gt (x : F) : (x.sub x).abs.gt_zero = false := by
  cases x with
  | nan => rfl
  | inf b => simp [F.sub, F.abs, F.gt_zero]
  | fin q => simp [F.sub, F.abs, F.gt_zero]

theorem fin_sub_gt_iff (p q : ℚ) :
    ((F.fin p).sub (F.fin q)).abs.gt_zero = false ↔ p = q := by
  simp [F.sub, F.abs, F.gt_zero, abs_pos, sub_eq_zero]

/-- C8 amended: `run_null_test` passes iff the two decoded sequences
have equal length and no pair has `|a[i] − b[i]| > 0.0` under IEEE
arithmetic — for sequences of finite samples this is exact pointwise
equality, but pairs involving NaN never count as differing. -/
theorem claim_C8_null_test (a b : List F) :
    ((null_test_compare a b).passed = true ↔
      (a.length = b.length ∧ ∀ i, i < a.length →
        ((a.getD i F.nan).sub (b.getD i F.nan)).abs.gt_zero = false)) ∧
    ((∀ x ∈ a, x.is_fin = true) → (∀ x ∈ b, x.is_fin = true) →
      ((null_test_compare a b).passed = true ↔ a = b)) := by
  refine ⟨null_test_passed_iff a b, fun hfa hfb => ?_⟩
  rw [null_test_passed_iff a b]
  constructor
  · rintro ⟨hlen, hpt⟩
    apply List.ext_getElem hlen
    intro i h1 h2
    have hda : a.getD i F.nan = a[i] := by
      rw [List.getD_eq_getElem?_getD, List.getElem?_eq_getElem h1]
      rfl
    have hdb : b.getD i F.nan = b[i] := by
      rw [List.getD_eq_getElem?_getD, List.getElem?_eq_getElem h2]
      rfl
    have hp := hpt i h1
    rw [hda, hdb] at hp
    have ha' := hfa a[i] (List.getElem_mem h1)
    have hb' := hfb b[i] (List.getElem_mem h2)
    cases hA : a[i] with
    | nan => rw [hA] at ha'; exact absurd ha' (by simp [F.is_fin])
    | inf s => rw [hA] at ha'; exact absurd ha' (by simp [F.is_fin])
    | fin p =>
      cases hB : b[i] with
      | nan => rw [hB] at hb'; exact absurd hb' (by simp [F.is_fin])
      | inf s => rw [hB] at hb'; exact absurd hb' (by simp [F.is_fin])
      | fin q =>
        rw [hA, hB] at hp
        rw [(fin_sub_gt_iff p q).mp hp]
  · rintro rfl
    exact ⟨rfl, fun i _ => sub_self_not_gt _⟩

/-- Witness for C8 (amended): two identical all-finite decodes pass; a
differing pair fails. -/
theorem claim_C8_null_test_witness :
    (null_test_compare [F.fin 1, F.fin 2] [F.fin 1, F.fin 2]).passed
        = true ∧
    (null_test_compare [F.fin 1, F.fin 2] [F.fin 1, F.fin 3]).passed
        = false := by
  constructor
  · exact ((claim_C8_null_test [F.fin 1, F.fin 2] [F.fin 1, F.fin 2]).2
      (by decide) (by decide)).mpr rfl
  · have hiff := (claim_C8_null_test [F.fin 1, F.fin 2] [F.fin 1, F.fin 3]).1
    rw [Bool.eq_false_iff]
    intro hp
    have h2 : ((F.fin 2).sub (F.fin 3)).abs.gt_zero = false :=
      (hiff.mp hp).2 1 (by norm_num)
    rw [fin_sub_gt_iff] at h2
    norm_num at h2

-- ─── Output callback (engine.rs, the cpal callback closure) ───

/-- `FADE_RAMP_SAMPLES` from engine.rs. -/
def FADE_RAMP_SAMPLES : ℕ := 256

/-- The fade state machine of the output callback. -/
inductive FadeState where
  | Playing
  | FadingOut
  | Silent
  | FadingIn
deriving DecidableEq

section Callback

variable {α : Type} [LinearOrderedField α]

/-- `hard_limit`: clamp to `±HARD_LIMIT_CEILING = ±0.99` (the `is_finite`
test never fires in the exact model, which has no non-finite values;
claims C1 and C7 do not depend on it). -/
def hard_limit (s : α) : α :=
  if s < -(99 / 100) then -(99 / 100)
  else if s > 99 / 100 then 99 / 100
  else s

/-- The underrun fade applied by the Playing branch on a short read: the
loop `for i in 0..ramp { data[read - ramp + i] *= equal_power_gain(1.0 -
i as f32 / ramp as f32) }`, entered at iteration `i`. -/
def fade_out_tail (epg : α → α) (read ramp : ℕ) (i : ℕ) (d : List α) :
    List α :=
  if _h : i < ramp then
    fade_out_tail epg read ramp (i + 1)
      (d.set (read - ramp + i)
        (d.getD (read - ramp + i) 0 * epg (1 - (i : α) / (ramp : α))))
  else d
termination_by ramp - i

/-- The result of one callback invocation: the filled output slice, the
ring buffer after the read, the next fade state and counter, and the
amount added to `dropout_count`. -/
structure CallbackResult (α : Type) where
  data : List α
  ring : RingBuffer α
  fade : FadeState
  fade_ctr : ℕ
  dropout_inc : ℕ

/-- The `FadeState::Playing` branch: read from the ring; in bit-perfect
mode leave the delivered samples untouched, otherwise map
`hard_limit(s * vol)` over them; on a short read count a dropout when
anything was delivered, fade out the last `min(read, ramp)` delivered
samples and zero-fill the tail. -/
def playing_branch (epg : α → α) (bit_perfect : Bool) (vol : α)
    (fade_ctr : ℕ) (ring : RingBuffer α) (data : List α) :
    CallbackResult α :=
  let r := ring.read data.length
  let delivered := r.1
  let read := delivered.length
  let data1 := delivered ++ data.drop read
  let data2 :=
    if bit_perfect then data1
    else (data1.take read).map (fun s => hard_limit (s * vol))
      ++ data1.drop read
  if read < data.length then
    let inc : ℕ := if read > 0 then 1 else 0
    let ramp := min read FADE_RAMP_SAMPLES
    let data3 := fade_out_tail epg read ramp 0 data2
    let data4 := data3.take read ++ List.replicate (data.length - read) 0
    { data := data4, ring := r.2, fade := .Playing, fade_ctr := fade_ctr,
      dropout_inc := inc }
  else
    { data := data2, ring := r.2, fade := .Playing, fade_ctr := fade_ctr,
      dropout_inc := 0 }

/-- One frame of the `FadingOut` loop: when the counter has reached 0,
zero the frame's channels; otherwise scale them by
`equal_power_gain(ctr / ramp)` (times volume and the limiter outside
bit-perfect mode) and decrement the counter. -/
def fading_out_frame (epg : α → α) (bit_perfect : Bool) (vol : α)
    (read ch_count : ℕ) (st : List α × ℕ) (frame_start : ℕ) :
    List α × ℕ :=
  let d := st.1
  let ctr := st.2
  if ctr = 0 then
    ((List.range ch_count).foldl
      (fun d c => if frame_start + c < read then d.set (frame_start + c) 0
        else d) d, ctr)
  else
    let g := epg ((ctr : α) / (FADE_RAMP_SAMPLES : α))
    ((List.range ch_count).foldl
      (fun d c =>
        if frame_start + c < read then
          d.set (frame_start + c)
            (if bit_perfect then d.getD (frame_start + c) 0 * g
             else hard_limit (d.getD (frame_start + c) 0 * vol * g))
        else d) d, ctr - 1)

/-- The `FadeState::FadingOut` branch: read, walk the delivered samples
frame by frame (`step_by(ch_count.max(1))`), zero the tail, and go
Silent once the counter hits zero. -/
def fading_out_branch (epg : α → α) (bit_perfect : Bool) (vol : α)
    (ch_count fade_ctr : ℕ) (ring : RingBuffer α) (data : List α) :
    CallbackResult α :=
  let r := ring.read data.length
  let read := r.1.length
  let data1 := r.1 ++ data.drop read
  let cm := max ch_count 1
  let frame_starts := List.range' 0 ((read + cm - 1) / cm) cm
  let st := frame_starts.foldl
    (fading_out_frame epg bit_perfect vol read ch_count) (data1, fade_ctr)
  let data2 := st.1.take read ++ List.replicate (data.length - read) 0
  { data := data2, ring := r.2,
    fade := if st.2 = 0 then .Silent else .FadingOut,
    fade_ctr := st.2, dropout_inc := 0 }

/-- One frame of the `FadingIn` loop: gain from
`progress = min(ctr / ramp, 1)`; in bit-perfect mode at full progress
the sample passes through untouched; the counter saturates at the ramp
length. -/
def fading_in_frame (epg : α → α) (bit_perfect : Bool) (vol : α)
    (read ch_count : ℕ) (st : List α × ℕ) (frame_start : ℕ) :
    List α × ℕ :=
  let d := st.1
  let ctr := st.2
  let progress : α :=
    if FADE_RAMP_SAMPLES ≤ ctr then 1
    else (ctr : α) / (FADE_RAMP_SAMPLES : α)
  let g := epg progress
  ((List.range ch_count).foldl
    (fun d c =>
      if frame_start + c < read then
        d.set (frame_start + c)
          (if bit_perfect ∧ 1 ≤ progress then d.getD (frame_start + c) 0
           else if bit_perfect then d.getD (frame_start + c) 0 * g
           else hard_limit (d.getD (frame_start + c) 0 * vol * g))
      else d) d, min (ctr + 1) FADE_RAMP_SAMPLES)

/-- The `FadeState::FadingIn` branch. -/
def fading_in_branch (epg : α → α) (bit_perfect : Bool) (vol : α)
    (ch_count fade_ctr : ℕ) (ring : RingBuffer α) (data : List α) :
    CallbackResult α :=
  let r := ring.read data.length
  let read := r.1.length
  let data1 := r.1 ++ data.drop read
  let cm := max ch_count 1
  let frame_starts := List.range' 0 ((read + cm - 1) / cm) cm
  let st := frame_starts.foldl
    (fading_in_frame epg bit_perfect vol read ch_count) (data1, fade_ctr)
  let data2 := st.1.take read ++ List.replicate (data.length - read) 0
  { data := data2, ring := r.2,
    fade := if FADE_RAMP_SAMPLES ≤ st.2 then .Playing else .FadingIn,
    fade_ctr := st.2, dropout_inc := 0 }

/-- The dispatch of one output-callback invocation on its current fade
state (the one-shot fade request flags have already been folded into
`fade` upstream). -/
def audio_callback (epg : α → α) (bit_perfect : Bool) (vol : α)
    (ch_count : ℕ) (fade : FadeState) (fade_ctr : ℕ)
    (ring : RingBuffer α) (data : List α) : CallbackResult α :=
  match fade with
  | .Silent =>
    { data := List.replicate data.length 0, ring := ring, fade := .Silent,
      fade_ctr := fade_ctr, dropout_inc := 0 }
  | .Playing => playing_branch epg bit_perfect vol fade_ctr ring data
  | .FadingOut =>
    fading_out_branch epg bit_perfect vol ch_count fade_ctr ring data
  | .FadingIn =>
    fading_in_branch epg bit_perfect vol ch_count fade_ctr ring data

end Callback

-- ─── Helpers for the callback proofs ───

theorem getD_set_self {α : Type} [Zero α] {l : List α} {i : ℕ}
    (h : i < l.length) (a : α) : (l.set i a).getD i 0 = a := by
  rw [List.getD_eq_getElem?_getD, List.getElem?_set_self h]
  rfl

theorem getD_set_ne {α : Type} [Zero α] {l : List α} {i j : ℕ} (h : i ≠ j)
    (a : α) : (l.set i a).getD j 0 = l.getD j 0 := by
  rw [List.getD_eq_getElem?_getD, List.getElem?_set_ne h,
    ← List.getD_eq_getElem?_getD]

theorem getD_replicate_zero {α : Type} [Zero α] (m i : ℕ) :
    (List.replicate m (0 : α)).getD i 0 = 0 := by
  rw [List.getD_eq_getElem?_getD, List.getElem?_replicate]
  split <;> rfl

/-- The number of samples delivered by a read is `min len available`. -/
theorem read_fst_length {α : Type} [Zero α] (rb : RingBuffer α) (len : ℕ) :
    (rb.read len).1.length = min len rb.available_read := by
  rw [read_eq]
  by_cases h0 : min len rb.available_read = 0
  · rw [if_pos h0]
    simp [h0]
  · rw [if_neg h0]
    simp

theorem fade_out_tail_length {α : Type} [LinearOrderedField α]
    (epg : α → α) (read ramp : ℕ) :
    ∀ i d, (fade_out_tail epg read ramp i d).length = d.length := by
  suffices H : ∀ n i (d : List α), ramp - i ≤ n →
      (fade_out_tail epg read ramp i d).length = d.length from
    fun i d => H (ramp - i) i d le_rfl
  intro n
  induction n with
  | zero =>
    intro i d h
    rw [fade_out_tail, dif_neg (by omega)]
  | succ n ih =>
    intro i d h
    rw [fade_out_tail]
    by_cases hi : i < ramp
    · rw [dif_pos hi, ih (i + 1) _ (by omega), List.length_set]
    · rw [dif_neg hi]

/-- Pointwise description of the underrun fade loop: starting at
iteration `i`, the loop multiplies slot `j ∈ [read - ramp + i, read)` by
`equal_power_gain(1 - (j - (read - ramp)) / ramp)` and leaves every
other slot alone. -/
theorem fade_out_tail_getD {α : Type} [LinearOrderedField α]
    (epg : α → α) (read ramp : ℕ) (hramp : ramp ≤ read) :
    ∀ i (d : List α), i ≤ ramp → read ≤ d.length → ∀ j,
      (fade_out_tail epg read ramp i d).getD j 0 =
        if read - ramp + i ≤ j ∧ j < read then
          d.getD j 0
            * epg (1 - ((j - (read - ramp) : ℕ) : α) / (ramp : α))
        else d.getD j 0 := by
  suffices H : ∀ n i (d : List α), ramp - i ≤ n → i ≤ ramp →
      read ≤ d.length → ∀ j,
      (fade_out_tail epg read ramp i d).getD j 0 =
        if read - ramp + i ≤ j ∧ j < read then
          d.getD j 0
            * epg (1 - ((j - (read - ramp) : ℕ) : α) / (ramp : α))
        else d.getD j 0 from
    fun i d hi hd j => H (ramp - i) i d le_rfl hi hd j
  intro n
  induction n with
  | zero =>
    intro i d h hi hd j
    have hie : i = ramp := by omega
    rw [fade_out_tail, dif_neg (by omega)]
    rw [if_neg (by omega)]
  | succ n ih =>
    intro i d h hi hd j
    rw [fade_out_tail]
    by_cases hilt : i < ramp
    · rw [dif_pos hilt]
      have hplen : read - ramp + i < d.length := by omega
      rw [ih (i + 1) _ (by omega) (by omega) (by rw [List.length_set]; exact hd)]
      by_cases hj1 : j = read - ramp + i
      · subst hj1
        rw [if_neg (by omega), if_pos (by omega)]
        rw [getD_set_self hplen]
        have hsub : read - ramp + i - (read - ramp) = i := by omega
        rw [hsub]
      · rw [getD_set_ne (fun he => hj1 he.symm)]
        by_cases hj2 : read - ramp + (i + 1) ≤ j ∧ j < read
        · rw [if_pos hj2, if_pos (by omega)]
        · rw [if_neg hj2]
          by_cases hj3 : read - ramp + i ≤ j ∧ j < read
          · exact absurd ⟨by omega, hj3.2⟩ hj2
          · rw [if_neg hj3]
    · rw [dif_neg hilt]
      rw [if_neg (by omega)]

/-- A concrete ring holding exactly two samples, for exercising short
reads in the callback. -/
def ring_two : RingBuffer ℝ := ((RingBuffer.new ℝ 4).write [1, 1]).2

/-- C7 counterexample: a `FadingOut` invocation whose ring read returns
2 of the 4 requested samples (0 < 2 < 4) leaves `dropout_count`
unchanged — only the Playing branch counts dropouts — although the
claim requires an increment of exactly one in every fade state. -/
theorem claim_C7_counterexample :
    (audio_callback (fun p => Real.sin (p * (Real.pi / 2))) true 1 2
        FadeState.FadingOut 256 ring_two [0, 0, 0, 0]).dropout_inc = 0 ∧
    (ring_two.read 4).1.length = 2 := by
  exact ⟨rfl, rfl⟩

/-- C7 amended: `dropout_count` is incremented exactly once by a Playing
invocation whose read delivered some but not all requested samples, and
is unchanged by every other invocation: a Playing full or empty read,
and every Silent, FadingOut and FadingIn invocation. -/
theorem claim_C7_dropout_accounting (bp : Bool) (vol : ℝ) (ch : ℕ)
    (fade : FadeState) (ctr : ℕ) (ring : RingBuffer ℝ) (data : List ℝ) :
    (audio_callback (fun p => Real.sin (p * (Real.pi / 2))) bp vol ch fade
        ctr ring data).dropout_inc =
      if fade = FadeState.Playing ∧ 0 < (ring.read data.length).1.length ∧
          (ring.read data.length).1.length < data.length
      then 1 else 0 := by
  cases fade with
  | Silent => simp [audio_callback]
  | FadingOut => simp [audio_callback, fading_out_branch]
  | FadingIn => simp [audio_callback, fading_in_branch]
  | Playing =>
    unfold audio_callback playing_branch
    dsimp only
    by_cases h1 : (ring.read data.length).1.length < data.length <;>
      by_cases h2 : 0 < (ring.read data.length).1.length <;>
      simp [h1, h2]

/-- Unfolded form of the Playing branch in bit-perfect mode: the
delivered samples are not touched before the underrun handling. -/
theorem playing_branch_bp (epg : ℝ → ℝ) (vol : ℝ) (ctr : ℕ)
    (ring : RingBuffer ℝ) (data : List ℝ) :
    playing_branch epg true vol ctr ring data =
      (let r := ring.read data.length
       let delivered := r.1
       let n := delivered.length
       let data1 := delivered ++ data.drop n
       if n < data.length then
         { data :=
             (fade_out_tail epg n (min n FADE_RAMP_SAMPLES) 0 data1).take n
               ++ List.replicate (data.length - n) 0,
           ring := r.2, fade := .Playing, fade_ctr := ctr,
           dropout_inc := if n > 0 then 1 else 0 }
       else
         { data := data1, ring := r.2, fade := .Playing, fade_ctr := ctr,
           dropout_inc := 0 }) := rfl

/-- C1 amended: in the Playing state with `is_bit_perfect_cb` true, a
full read passes the delivered samples through bit-identically and an
empty read produces silence, exactly as the claim states; but a short
read with `0 < n < requested` is not delivered verbatim: the last
`min(n, 256)` delivered samples are scaled by the equal-power fade-out
curve `sin((1 − i/ramp)·π/2)` before the tail is zero-filled. -/
theorem claim_C1_bit_perfect_playing (vol : ℝ) (ctr ch : ℕ)
    (ring : RingBuffer ℝ) (data : List ℝ) (delivered : List ℝ) (n : ℕ)
    (hdel : (ring.read data.length).1 = delivered)
    (hn : delivered.length = n) :
    (n = data.length →
      (audio_callback (fun p => Real.sin (p * (Real.pi / 2))) true vol ch
        FadeState.Playing ctr ring data).data = delivered) ∧
    (n = 0 →
      (audio_callback (fun p => Real.sin (p * (Real.pi / 2))) true vol ch
        FadeState.Playing ctr ring data).data
        = List.replicate data.length 0) ∧
    (0 < n → n < data.length →
      (audio_callback (fun p => Real.sin (p * (Real.pi / 2))) true vol ch
          FadeState.Playing ctr ring data).data.length = data.length ∧
      ∀ j, j < data.length →
        (audio_callback (fun p => Real.sin (p * (Real.pi / 2))) true vol ch
            FadeState.Playing ctr ring data).data.getD j 0 =
          if j < n - min n FADE_RAMP_SAMPLES then delivered.getD j 0
          else if j < n then
            delivered.getD j 0 *
              Real.sin ((1 - ((j - (n - min n FADE_RAMP_SAMPLES) : ℕ) : ℝ)
                  / ((min n FADE_RAMP_SAMPLES : ℕ) : ℝ)) * (Real.pi / 2))
          else 0) := by
  have hac : audio_callback (fun p => Real.sin (p * (Real.pi / 2))) true vol
      ch FadeState.Playing ctr ring data
      = playing_branch (fun p => Real.sin (p * (Real.pi / 2))) true vol ctr
        ring data := rfl
  rw [hac, playing_branch_bp]
  dsimp only
  rw [hdel, hn]
  refine ⟨?_, ?_, ?_⟩
  · intro hlen
    rw [if_neg (by omega)]
    rw [hlen, List.drop_length, List.append_nil]
  · intro h0
    by_cases hl : data.length = 0
    · rw [if_neg (by omega)]
      dsimp only
      have hdnil : data = [] := List.length_eq_zero.mp hl
      have hdelnil : delivered = [] := List.length_eq_zero.mp (hn.trans h0)
      rw [hdnil, hdelnil]
      simp
    · rw [if_pos (by omega)]
      dsimp only
      rw [h0]
      rw [List.take_zero, List.nil_append, Nat.sub_zero]
  · intro hpos hlt
    rw [if_pos hlt]
    dsimp only
    have hramp : min n FADE_RAMP_SAMPLES ≤ n := min_le_left _ _
    have hd1len : (delivered ++ data.drop n).length = data.length := by
      rw [List.length_append, hn, List.length_drop]
      omega
    have hfadelen :
        (fade_out_tail (fun p => Real.sin (p * (Real.pi / 2))) n
          (min n FADE_RAMP_SAMPLES) 0 (delivered ++ data.drop n)).length
          = data.length := by
      rw [fade_out_tail_length, hd1len]
    constructor
    · rw [List.length_append, List.length_take, List.length_replicate,
        hfadelen]
      omega
    · intro j hj
      by_cases hjn : j < n
      · rw [getD_append_left
          (by rw [List.length_take, hfadelen]; omega)]
        rw [getD_take hjn]
        rw [fade_out_tail_getD _ n (min n FADE_RAMP_SAMPLES) hramp 0 _
          (Nat.zero_le _) (by omega) j]
        have hdelj : (delivered ++ data.drop n).getD j 0
            = delivered.getD j 0 :=
          getD_append_left (by omega)
        by_cases hj1 : j < n - min n FADE_RAMP_SAMPLES
        · rw [if_neg (by omega), if_pos hj1, hdelj]
        · rw [if_pos (by omega), if_neg hj1, if_pos hjn, hdelj]
      · rw [getD_append_right
          (by rw [List.length_take, hfadelen]; omega)]
        rw [if_neg (by omega), if_neg hjn]
        exact getD_replicate_zero _ _

/-- Witness for C1 (amended), full-read prong: a bit-perfect Playing
callback whose read fills the whole slice outputs the delivered samples
`[5, 7]` bit-identically. -/
theorem claim_C1_bit_perfect_playing_witness :
    (audio_callback (fun p => Real.sin (p * (Real.pi / 2))) true 1 2
        FadeState.Playing 256 ((RingBuffer.new ℝ 4).write [5, 7]).2
        [0, 0]).data = [5, 7] :=
  (claim_C1_bit_perfect_playing 1 256 2 ((RingBuffer.new ℝ 4).write [5, 7]).2
    [0, 0] [5, 7] 2 rfl rfl).1 rfl

/-- C1 counterexample: with two samples in the ring and four requested,
the bit-perfect Playing branch does not output "the delivered samples
followed by zeros": the second delivered sample is multiplied by the
fade-out gain `sin(π/4) = √2/2 ≠ 1`. -/
theorem claim_C1_counterexample :
    (audio_callback (fun p => Real.sin (p * (Real.pi / 2))) true 1 2
        FadeState.Playing 256 ring_two [0, 0, 0, 0]).data
      ≠ (ring_two.read 4).1
        ++ List.replicate (4 - (ring_two.read 4).1.length) 0 := by
  intro h
  have hd : (ring_two.read 4).1 = [1, 1] := rfl
  have hget := congrArg (fun l => List.getD l 1 0) h
  dsimp only at hget
  have hlhs : (audio_callback (fun p => Real.sin (p * (Real.pi / 2))) true 1
      2 FadeState.Playing 256 ring_two [0, 0, 0, 0]).data.getD 1 0
      = 1 * Real.sin ((1 - (1 : ℝ) / 2) * (Real.pi / 2)) := by
    have hac : audio_callback (fun p => Real.sin (p * (Real.pi / 2))) true 1
        2 FadeState.Playing 256 ring_two [0, 0, 0, 0]
        = playing_branch (fun p => Real.sin (p * (Real.pi / 2))) true 1 256
          ring_two [0, 0, 0, 0] := rfl
    rw [hac, playing_branch_bp]
    dsimp only
    rw [show ([0, 0, 0, 0] : List ℝ).length = 4 from rfl]
    rw [hd]
    have hn2 : ([1, 1] : List ℝ).length = 2 := rfl
    rw [hn2]
    rw [if_pos (by norm_num)]
    dsimp only
    have hmin : min 2 FADE_RAMP_SAMPLES = 2 := rfl
    rw [hmin]
    have hd1 : ([1, 1] : List ℝ) ++ List.drop 2 [0, 0, 0, 0]
        = [1, 1, 0, 0] := rfl
    rw [hd1]
    have hlen : (fade_out_tail (fun p => Real.sin (p * (Real.pi / 2))) 2 2 0
        ([1, 1, 0, 0] : List ℝ)).length = 4 := by
      rw [fade_out_tail_length]
      rfl
    rw [getD_append_left (by rw [List.length_take, hlen]; norm_num)]
    rw [getD_take (by norm_num)]
    rw [fade_out_tail_getD (fun p => Real.sin (p * (Real.pi / 2))) 2 2
      le_rfl 0 [1, 1, 0, 0] (by norm_num) (by norm_num) 1]
    rw [if_pos (by norm_num)]
    norm_num
  rw [hlhs, hd] at hget
  have hone : (([1, 1] : List ℝ)
      ++ List.replicate (4 - ([1, 1] : List ℝ).length) 0).getD 1 0 = 1 := rfl
  rw [hone] at hget
  have harg : (1 - (1 : ℝ) / 2) * (Real.pi / 2) = Real.pi / 4 := by ring
  rw [harg, Real.sin_pi_div_four, one_mul] at hget
  have hsq : Real.sqrt 2 = 2 := by linarith
  have h3 := Real.sq_sqrt (by norm_num : (0 : ℝ) ≤ 2)
  rw [hsq] at h3
  norm_num at h3
